import Mathlib

/-
Shallow embedding of the cagpt repository (src/build_kb_index.py and
src/ca_agent_tools.py).  Pure Python functions become Lean functions over
List Char / String; the external services (embedding API, FAISS search)
are abstracted as function parameters; fallible code returns Except.
-/

namespace CaGpt

/-! ## build_kb_index.py -/

/-- CHUNK_SIZE = 800 (chars per chunk). -/
def CHUNK_SIZE : Nat := 800

/-- Fuel-indexed model of Python range(start, stop, step) for a
non-negative step: yields start, start+step, ... while below stop.
The fuel makes the recursion structural; fuel stop - start is enough
whenever step is positive. -/
def pyRangeAux : Nat → Nat → Nat → Nat → List Nat
  | 0, _, _, _ => []
  | fuel + 1, start, stop, step =>
      if 0 < step ∧ start < stop then start :: pyRangeAux fuel (start + step) stop step
      else []

/-- Python range(start, stop, step) with step ≥ 0 (step = 0 raises in
Python and is modelled as the empty range, which never arises here). -/
def pyRange (start stop step : Nat) : List Nat :=
  pyRangeAux (stop - start) start stop step

/-- chunk_text(text, size) = [text[i:i+size] for i in range(0, len(text), size)].
A Python slice text[i:i+size] is drop i followed by take size. -/
def chunk_text (text : List Char) (size : Nat := CHUNK_SIZE) : List (List Char) :=
  (pyRange 0 text.length size).map (fun i => (text.drop i).take size)

/-- A per-chunk metadata record \x7b"file": name, "text": p\x7d. -/
structure ChunkMeta where
  file : String
  text : List Char
  deriving DecidableEq, Repr

/-- The collection loop of main(): for each (filename, contents) pair, in
order, chunk the contents and extend both the chunks list and the aligned
metadata list. -/
def buildCorpus : List (String × List Char) → List (List Char) × List ChunkMeta
  | [] => ([], [])
  | (name, txt) :: rest =>
      let parts := chunk_text txt CHUNK_SIZE
      let cm := buildCorpus rest
      (parts ++ cm.1, parts.map (fun p => ⟨name, p⟩) ++ cm.2)

/-- Observable outcome of main(): the reported chunk count (the
"Total chunks" diagnostic) and, unless the build aborted, the persisted
index vectors and metadata.  V abstracts the embedding-vector type. -/
structure BuildResult (V : Type) where
  reportedChunks : Nat
  written : Option (List V × List ChunkMeta)
  deriving DecidableEq, Repr

/-- main(): collect chunks and metadata, report the chunk count, abort
with no writes if there are no chunks, otherwise embed every chunk
(embed_texts, one vector per chunk in order), L2-normalize each vector
and persist index plus metadata. -/
def buildMain {V : Type} (embed_texts : List Char → V) (normalize_L2 : V → V)
    (files : List (String × List Char)) : BuildResult V :=
  let cm := buildCorpus files
  if cm.1.isEmpty then ⟨cm.1.length, none⟩
  else ⟨cm.1.length, some ((cm.1.map embed_texts).map normalize_L2, cm.2)⟩

/-! ## ca_agent_tools.py -/

/-- MEMORY_WINDOW = 6. -/
def MEMORY_WINDOW : Nat := 6

/-- The loaded FAISS index, abstracted: search takes a (normalized) query
vector and top_k and returns the position row I[0] of int64 positions
(faiss uses -1 as the "no match" sentinel). -/
structure FaissIndex (V : Type) where
  search : V → Nat → List Int

/-- The hit-collection loop of semantic_search: for idx in I[0], skip it
if idx < 0 or idx >= len(kb_meta), else append kb_meta[idx]. -/
def searchHits (kb_meta : List ChunkMeta) : List Int → List ChunkMeta
  | [] => []
  | idx :: rest =>
      if h : idx < 0 ∨ (kb_meta.length : Int) ≤ idx then searchHits kb_meta rest
      else kb_meta.get ⟨idx.toNat, by omega⟩ :: searchHits kb_meta rest

/-- semantic_search(query, top_k): with no index loaded return [];
otherwise embed the query, L2-normalize it, search the index and map the
returned positions through the skip-invalid loop. -/
def semantic_search {V : Type} (embedQuery : String → V) (normalize_L2 : V → V)
    (faiss_index : Option (FaissIndex V)) (kb_meta : List ChunkMeta)
    (query : String) (top_k : Nat := 3) : List ChunkMeta :=
  match faiss_index with
  | none => []
  | some idx => searchHits kb_meta (idx.search (normalize_L2 (embedQuery query)) top_k)

/-- Python str.lower(), per character. -/
def pyLower (s : String) : String := String.mk (s.data.map Char.toLower)

/-- Python str.strip(): drop leading and trailing whitespace. -/
def pyStrip (s : String) : String :=
  String.mk (((s.data.dropWhile Char.isWhitespace).reverse.dropWhile Char.isWhitespace).reverse)

/-- needle is a prefix of hay. -/
def isPrefixList : List Char → List Char → Bool
  | [], _ => true
  | _ :: _, [] => false
  | a :: as, b :: bs => a == b && isPrefixList as bs

/-- Python substring test needle in hay, checked at every start position
(the empty needle is contained in every string). -/
def containsList (hay needle : List Char) : Bool :=
  match hay with
  | [] => isPrefixList needle []
  | c :: rest => isPrefixList needle (c :: rest) || containsList rest needle

/-- Python s in key on strings. -/
def pyContains (hay needle : String) : Bool := containsList hay.data needle.data

/-- The structured result of laws_lookup. -/
structure LookupResult where
  found : Bool
  «section» : String
  text : String
  deriving DecidableEq, Repr

/-- laws_lookup(section): strip the query; first pass, case-insensitive
exact key match in iteration order; second pass, case-insensitive
substring match (query inside key) in iteration order; otherwise a
found-false result echoing the original query. -/
def laws_lookup (LAWS_DB : List (String × String)) («section» : String) : LookupResult :=
  match LAWS_DB.find? (fun kv => pyLower kv.1 == pyLower (pyStrip «section»)) with
  | some kv => ⟨true, kv.1, kv.2⟩
  | none =>
    match LAWS_DB.find? (fun kv => pyContains (pyLower kv.1) (pyLower (pyStrip «section»))) with
    | some kv => ⟨true, kv.1, kv.2⟩
    | none => ⟨false, «section», "Section not found in local DB."⟩

/-- A chat message / stored turn \x7b"role": r, "content": c\x7d. -/
structure Msg where
  role : String
  content : String
  deriving DecidableEq, Repr

/-- SESSION_MEMORY: a mapping from session id to its ordered turn list,
modelled as an insertion-ordered association list (Python dict). -/
abbrev Memory := List (String × List Msg)

/-- SESSION_MEMORY.get(session_id, []). -/
def memGet : Memory → String → List Msg
  | [], _ => []
  | kv :: rest, sid => if kv.1 = sid then kv.2 else memGet rest sid

/-- SESSION_MEMORY.setdefault(session_id, []).append(turn): append to the
existing history, or create the key at the end of the dict. -/
def memAppend : Memory → String → Msg → Memory
  | [], sid, t => [(sid, [t])]
  | kv :: rest, sid, t =>
      if kv.1 = sid then (kv.1, kv.2 ++ [t]) :: rest
      else kv :: memAppend rest sid t

/-- The memory read in build_base_messages: mem = SESSION_MEMORY.get(sid, []);
if mem: extend with mem[-MEMORY_WINDOW:] (the trailing window). -/
def promptMemoryRead (memory : Memory) (session_id : String) : List Msg :=
  let mem := memGet memory session_id
  if mem.isEmpty then [] else mem.drop (mem.length - MEMORY_WINDOW)

/-- The two unconditional session-memory appends at the end of call_agent:
the user question then the assistant answer. -/
def call_agent_memory_update (memory : Memory) (session_id question answer : String) : Memory :=
  memAppend (memAppend memory session_id ⟨"user", question⟩) session_id ⟨"assistant", answer⟩

/-- A Python value produced by json.loads. -/
inductive PyJson where
  | obj : List (String × PyJson) → PyJson
  | arr : List PyJson → PyJson
  | str : String → PyJson
  | num : Int → PyJson
  | boolean : Bool → PyJson
  | null : PyJson

/-- raw_args = tool_call.function.arguments or "\x7b\x7d" (Python or:
None and the empty string are falsy). -/
def pyRawArgs (argumentsField : Option String) : String :=
  match argumentsField with
  | none => "{}"
  | some s => if s = "" then "{}" else s

/-- Python dict.get(key, default) on the parsed object. -/
def pyDictGet (kvs : List (String × PyJson)) (key : String) (dflt : PyJson) : PyJson :=
  match kvs.find? (fun kv => kv.1 == key) with
  | some kv => kv.2
  | none => dflt

/-- What the tool branch of call_agent produces for the model:
either the laws_lookup result or the error-shaped unknown-tool object. -/
inductive ToolResult where
  | lookup : LookupResult → ToolResult
  | unknownTool : String → ToolResult
  deriving DecidableEq, Repr

/-- The tool branch of call_agent: take raw_args, try json.loads
(abstracted as jsonParse) and on failure fall back to the dict
\x7b"section": raw_args\x7d; for laws_lookup read args.get("section", "")
(an AttributeError if args is not a dict, a TypeError inside
section.strip() if the value is not a string) and execute the tool;
any other tool name yields the error-shaped result without touching args. -/
def call_agent_tool_step (jsonParse : String → Option PyJson)
    (LAWS_DB : List (String × String)) (func_name : String)
    (argumentsField : Option String) : Except String ToolResult :=
  let raw_args := pyRawArgs argumentsField
  let args : PyJson :=
    match jsonParse raw_args with
    | some v => v
    | none => PyJson.obj [("section", PyJson.str raw_args)]
  if func_name = "laws_lookup" then
    match args with
    | PyJson.obj kvs =>
        match pyDictGet kvs "section" (PyJson.str "") with
        | PyJson.str s => Except.ok (ToolResult.lookup (laws_lookup LAWS_DB s))
        | _ => Except.error "TypeError: strip on a non-string section value"
    | _ => Except.error "AttributeError: parsed args object has no attribute get"
  else Except.ok (ToolResult.unknownTool func_name)

/-! ## Lemmas about pyRange and chunk_text -/

theorem pyRangeAux_stop (fuel start stop step : Nat) (h : ¬ start < stop) :
    pyRangeAux fuel start stop step = [] := by
  cases fuel with
  | zero => rfl
  | succ f => simp [pyRangeAux, h]

theorem pyRangeAux_congr : ∀ (f1 f2 start stop step : Nat),
    stop - start ≤ f1 → stop - start ≤ f2 →
    pyRangeAux f1 start stop step = pyRangeAux f2 start stop step := by
  intro f1
  induction f1 with
  | zero =>
    intro f2 start stop step h1 h2
    have h : ¬ start < stop := by omega
    rw [pyRangeAux_stop _ _ _ _ h, pyRangeAux_stop _ _ _ _ h]
  | succ f ih =>
    intro f2 start stop step h1 h2
    by_cases hc : 0 < step ∧ start < stop
    · cases f2 with
      | zero => omega
      | succ f2 =>
        simp only [pyRangeAux, if_pos hc]
        exact congrArg (start :: ·) (ih f2 (start + step) stop step (by omega) (by omega))
    · cases f2 with
      | zero => simp [pyRangeAux, if_neg hc]
      | succ f2 => simp [pyRangeAux, if_neg hc]

theorem pyRangeAux_shift (c step : Nat) : ∀ (fuel a b : Nat),
    pyRangeAux fuel (a + c) (b + c) step = (pyRangeAux fuel a b step).map (· + c) := by
  intro fuel
  induction fuel with
  | zero => intro a b; rfl
  | succ f ih =>
    intro a b
    by_cases hc : 0 < step ∧ a < b
    · have hc2 : 0 < step ∧ a + c < b + c := ⟨hc.1, by omega⟩
      simp only [pyRangeAux, if_pos hc, if_pos hc2, List.map_cons]
      have h := ih (a + step) b
      rw [Nat.add_right_comm a c step, h]
    · have hc2 : ¬ (0 < step ∧ a + c < b + c) := fun h => hc ⟨h.1, by omega⟩
      simp [pyRangeAux, if_neg hc, if_neg hc2]

theorem pyRange_eq (start stop step : Nat) :
    pyRange start stop step =
      if 0 < step ∧ start < stop then start :: pyRange (start + step) stop step else [] := by
  by_cases hc : 0 < step ∧ start < stop
  · rw [if_pos hc]
    unfold pyRange
    obtain ⟨m, hm⟩ : ∃ m, stop - start = m + 1 := ⟨stop - start - 1, by omega⟩
    rw [hm]
    simp only [pyRangeAux, if_pos hc]
    exact congrArg (start :: ·)
      (pyRangeAux_congr m (stop - (start + step)) (start + step) stop step (by omega) le_rfl)
  · rw [if_neg hc]
    unfold pyRange
    cases h : stop - start with
    | zero => rfl
    | succ m => simp [pyRangeAux, if_neg hc]

theorem chunk_text_nil (size : Nat) : chunk_text [] size = [] := rfl

theorem chunk_text_cons (t : List Char) (size : Nat) (hs : 0 < size) (ht : t ≠ []) :
    chunk_text t size = t.take size :: chunk_text (t.drop size) size := by
  have hn : 0 < t.length := List.length_pos.mpr ht
  unfold chunk_text
  rw [pyRange_eq, if_pos ⟨hs, hn⟩, List.map_cons]
  simp only [List.drop_zero]
  congr 1
  rw [List.length_drop]
  by_cases hns : t.length ≤ size
  · rw [show t.length - size = 0 by omega]
    rw [pyRange_eq, if_neg (by omega), pyRange_eq, if_neg (by omega)]
    rfl
  · unfold pyRange
    rw [Nat.sub_zero]
    simp only [Nat.zero_add]
    have hshift := pyRangeAux_shift size size (t.length - size) 0 (t.length - size)
    rw [Nat.zero_add, show t.length - size + size = t.length from by omega] at hshift
    rw [hshift, List.map_map]
    have hfun : ((fun i => (t.drop i).take size) ∘ (· + size)) =
        (fun i => ((t.drop size).drop i).take size) := by
      funext i
      simp only [Function.comp_apply]
      rw [List.drop_drop, Nat.add_comm i size]
    rw [hfun]

theorem ceil_div_step (m s : Nat) (hs : 0 < s) (hm : 0 < m) :
    (m - s + s - 1) / s + 1 = (m + s - 1) / s := by
  by_cases hms : m ≤ s
  · rw [show m - s + s - 1 = s - 1 from by omega,
      Nat.div_eq_of_lt (show s - 1 < s from by omega),
      show m + s - 1 = (m - 1) + s from by omega,
      Nat.add_div_right _ hs,
      Nat.div_eq_of_lt (show m - 1 < s from by omega)]
  · rw [show m - s + s - 1 = (m - 1 - s) + s from by omega,
      Nat.add_div_right _ hs,
      show m + s - 1 = (m - 1 - s) + s + s from by omega,
      Nat.add_div_right _ hs, Nat.add_div_right _ hs]

theorem chunk_text_join_aux (size : Nat) (hs : 0 < size) :
    ∀ (n : Nat) (t : List Char), t.length ≤ n → (chunk_text t size).flatten = t := by
  intro n
  induction n with
  | zero =>
    intro t h
    have ht : t = [] := List.eq_nil_of_length_eq_zero (by omega)
    subst ht
    rfl
  | succ n ih =>
    intro t h
    by_cases ht : t = []
    · subst ht; rfl
    · rw [chunk_text_cons t size hs ht, List.flatten_cons,
        ih (t.drop size) (by rw [List.length_drop]; have := List.length_pos.mpr ht; omega)]
      exact List.take_append_drop size t

theorem chunk_text_mem_aux (size : Nat) (hs : 0 < size) :
    ∀ (n : Nat) (t : List Char), t.length ≤ n →
      ∀ c ∈ chunk_text t size, c.length ≤ size := by
  intro n
  induction n with
  | zero =>
    intro t h c hc
    have ht : t = [] := List.eq_nil_of_length_eq_zero (by omega)
    subst ht
    rw [chunk_text_nil] at hc
    exact absurd hc (List.not_mem_nil c)
  | succ n ih =>
    intro t h c hc
    by_cases ht : t = []
    · subst ht
      rw [chunk_text_nil] at hc
      exact absurd hc (List.not_mem_nil c)
    · rw [chunk_text_cons t size hs ht] at hc
      rcases List.mem_cons.mp hc with h1 | h1
      · subst h1
        rw [List.length_take]
        omega
      · exact ih (t.drop size)
          (by rw [List.length_drop]; have := List.length_pos.mpr ht; omega) c h1

theorem chunk_text_count_aux (size : Nat) (hs : 0 < size) :
    ∀ (n : Nat) (t : List Char), t.length ≤ n →
      (chunk_text t size).length = (t.length + size - 1) / size := by
  intro n
  induction n with
  | zero =>
    intro t h
    have ht : t = [] := List.eq_nil_of_length_eq_zero (by omega)
    subst ht
    rw [chunk_text_nil]
    simp [Nat.div_eq_of_lt (show size - 1 < size from by omega)]
  | succ n ih =>
    intro t h
    by_cases ht : t = []
    · subst ht
      rw [chunk_text_nil]
      simp [Nat.div_eq_of_lt (show size - 1 < size from by omega)]
    · have hpos := List.length_pos.mpr ht
      rw [chunk_text_cons t size hs ht, List.length_cons,
        ih (t.drop size) (by rw [List.length_drop]; omega), List.length_drop]
      exact ceil_div_step t.length size hs hpos

/-- C2: for every text and every chunk size greater than zero,
chunk_text returns a sequence whose concatenation is the original text,
in which every chunk has length at most size, and whose length is
ceil(length(text) / size). -/
theorem chunk_text_spec (text : List Char) (size : Nat) (hs : 0 < size) :
    (chunk_text text size).flatten = text ∧
    (∀ c ∈ chunk_text text size, c.length ≤ size) ∧
    (chunk_text text size).length = (text.length + size - 1) / size :=
  ⟨chunk_text_join_aux size hs text.length text le_rfl,
   chunk_text_mem_aux size hs text.length text le_rfl,
   chunk_text_count_aux size hs text.length text le_rfl⟩

/-- Witness for C2: the spec instantiated at the five-character text
"abcde" and chunk size 2, giving chunks ab, cd, e. -/
theorem chunk_text_spec_witness :
    0 < 2 ∧
    ((chunk_text [ 'a', 'b', 'c', 'd', 'e'] 2).flatten = [ 'a', 'b', 'c', 'd', 'e'] ∧
     (∀ c ∈ chunk_text [ 'a', 'b', 'c', 'd', 'e'] 2, c.length ≤ 2) ∧
     (chunk_text [ 'a', 'b', 'c', 'd', 'e'] 2).length =
       (([ 'a', 'b', 'c', 'd', 'e'] : List Char).length + 2 - 1) / 2) :=
  ⟨by decide, chunk_text_spec [ 'a', 'b', 'c', 'd', 'e'] 2 (by decide)⟩

/-! ## Lemmas about laws_lookup -/

theorem find?_append_first {α : Type} (p : α → Bool) (pre post : List α) (x : α)
    (hx : p x = true) (hpre : ∀ y ∈ pre, p y = false) :
    (pre ++ x :: post).find? p = some x := by
  induction pre with
  | nil => exact List.find?_cons_of_pos post hx
  | cons b pre ih =>
    rw [List.cons_append,
      List.find?_cons_of_neg _ (by simp [hpre b (List.mem_cons_self b pre)])]
    exact ih fun y hy => hpre y (List.mem_cons_of_mem b hy)

theorem containsList_nil_needle (hay : List Char) : containsList hay [] = true := by
  cases hay with
  | nil => rfl
  | cons c rest => rfl

/-- C3: if the stripped query equals some mapping key case-insensitively,
laws_lookup returns the first such key and its exact text, even when other
keys would substring-match; otherwise, if the stripped query occurs
case-insensitively inside some key, laws_lookup returns the first such key
in mapping iteration order, with its text. -/
theorem laws_lookup_match_order (LAWS_DB : List (String × String)) (q : String) :
    (∀ (pre post : List (String × String)) (k v : String),
        LAWS_DB = pre ++ (k, v) :: post →
        pyLower k = pyLower (pyStrip q) →
        (∀ kv ∈ pre, pyLower kv.1 ≠ pyLower (pyStrip q)) →
        laws_lookup LAWS_DB q = ⟨true, k, v⟩) ∧
    (∀ (pre post : List (String × String)) (k v : String),
        LAWS_DB = pre ++ (k, v) :: post →
        (∀ kv ∈ LAWS_DB, pyLower kv.1 ≠ pyLower (pyStrip q)) →
        pyContains (pyLower k) (pyLower (pyStrip q)) = true →
        (∀ kv ∈ pre, pyContains (pyLower kv.1) (pyLower (pyStrip q)) = false) →
        laws_lookup LAWS_DB q = ⟨true, k, v⟩) := by
  constructor
  · intro pre post k v hdb hk hpre
    subst hdb
    unfold laws_lookup
    rw [find?_append_first _ pre post (k, v) (by simp [hk])
      (fun y hy => beq_eq_false_iff_ne.mpr (hpre y hy))]
  · intro pre post k v hdb hnone hk hpre
    subst hdb
    unfold laws_lookup
    have h1 : (pre ++ (k, v) :: post).find?
        (fun kv => pyLower kv.1 == pyLower (pyStrip q)) = none := by
      rw [List.find?_eq_none]
      intro x hx
      simp only [beq_iff_eq]
      exact hnone x hx
    rw [h1, find?_append_first _ pre post (k, v) hk hpre]

/-- Witness for C3: with two keys, the query matches the second key
exactly (case-insensitively, after stripping) while also being a only a
substring elsewhere, and the exact key wins. -/
theorem laws_lookup_match_order_witness :
    laws_lookup [("Section 17", "textA"), ("17(5) CGST", "textB")] " 17(5) cgst" =
      ⟨true, "17(5) CGST", "textB"⟩ :=
  (laws_lookup_match_order [("Section 17", "textA"), ("17(5) CGST", "textB")] " 17(5) cgst").1
    [("Section 17", "textA")] [] "17(5) CGST" "textB" rfl (by decide) (by decide)

/-- C4: a query matching no key exactly or by substring yields a
found-false result echoing the original, unmodified query string. -/
theorem laws_lookup_not_found (LAWS_DB : List (String × String)) (q : String)
    (h : ∀ kv ∈ LAWS_DB, pyLower kv.1 ≠ pyLower (pyStrip q) ∧
        pyContains (pyLower kv.1) (pyLower (pyStrip q)) = false) :
    laws_lookup LAWS_DB q = ⟨false, q, "Section not found in local DB."⟩ := by
  unfold laws_lookup
  have h1 : LAWS_DB.find? (fun kv => pyLower kv.1 == pyLower (pyStrip q)) = none := by
    rw [List.find?_eq_none]
    intro x hx
    simp only [beq_iff_eq]
    exact (h x hx).1
  have h2 : LAWS_DB.find?
      (fun kv => pyContains (pyLower kv.1) (pyLower (pyStrip q))) = none := by
    rw [List.find?_eq_none]
    intro x hx
    simp [(h x hx).2]
  rw [h1, h2]

/-- Witness for C4: a query matching nothing in a one-entry mapping. -/
theorem laws_lookup_not_found_witness :
    laws_lookup [("17(5) CGST", "textB")] "99Z" =
      ⟨false, "99Z", "Section not found in local DB."⟩ :=
  laws_lookup_not_found [("17(5) CGST", "textB")] "99Z" (by decide)

/-- C10 counterexample: in a non-empty mapping whose second key is the
empty string, the empty query hits the exact-match pass on that second
key, so the returned entry is not the first entry of the mapping. -/
theorem laws_lookup_blank_counterexample :
    ([("Section 1", "textA"), ("", "textB")] : List (String × String)) ≠ [] ∧
    laws_lookup [("Section 1", "textA"), ("", "textB")] "" = ⟨true, "", "textB"⟩ ∧
    laws_lookup [("Section 1", "textA"), ("", "textB")] "" ≠ ⟨true, "Section 1", "textA"⟩ := by
  refine ⟨by decide, ?_, by decide⟩
  decide

/-- C10 amended: for every non-empty laws mapping none of whose keys is
the empty string, an empty or whitespace-only query returns found = true
with the first entry of the mapping in iteration order. -/
theorem laws_lookup_blank_query (k v : String) (rest : List (String × String)) (q : String)
    (hkeys : ∀ kv ∈ (k, v) :: rest, kv.1 ≠ "")
    (hq : ∀ c ∈ q.data, c.isWhitespace) :
    laws_lookup ((k, v) :: rest) q = ⟨true, k, v⟩ := by
  have hstrip : pyStrip q = "" := by
    unfold pyStrip
    rw [List.dropWhile_eq_nil_iff.mpr hq]
    rfl
  have hlow : pyLower (pyStrip q) = "" := by rw [hstrip]; rfl
  unfold laws_lookup
  rw [hlow]
  have h1 : ((k, v) :: rest).find? (fun kv => pyLower kv.1 == "") = none := by
    rw [List.find?_eq_none]
    intro x hx
    simp only [beq_iff_eq]
    intro hcon
    apply hkeys x hx
    have hd : x.1.data = [] := by
      have hmap : x.1.data.map Char.toLower = [] := congrArg String.data hcon
      exact List.map_eq_nil_iff.mp hmap
    exact String.ext hd
  have h2 : ((k, v) :: rest).find? (fun kv => pyContains (pyLower kv.1) "") = some (k, v) := by
    exact List.find?_cons_of_pos rest (containsList_nil_needle (pyLower k).data)
  rw [h1, h2]

/-- Witness for the amended C10: a whitespace-only query against a
one-entry mapping returns that first entry. -/
theorem laws_lookup_blank_query_witness :
    laws_lookup [("Section 1", "textA")] "  " = ⟨true, "Section 1", "textA"⟩ :=
  laws_lookup_blank_query "Section 1" "textA" [] "  " (by decide) (by decide)

/-! ## Lemmas about session memory -/

theorem memGet_memAppend (m : Memory) (sid : String) (t : Msg) :
    memGet (memAppend m sid t) sid = memGet m sid ++ [t] := by
  induction m with
  | nil => simp [memAppend, memGet]
  | cons kv rest ih =>
    by_cases h : kv.1 = sid
    · simp [memAppend, memGet, h]
    · simp [memAppend, memGet, h, ih]

theorem memGet_update (m : Memory) (sid question answer : String) :
    memGet (call_agent_memory_update m sid question answer) sid =
      memGet m sid ++ [⟨"user", question⟩, ⟨"assistant", answer⟩] := by
  unfold call_agent_memory_update
  rw [memGet_memAppend, memGet_memAppend, List.append_assoc]
  rfl

theorem memGet_unknown (m : Memory) (sid : String) (h : ∀ kv ∈ m, kv.1 ≠ sid) :
    memGet m sid = [] := by
  induction m with
  | nil => rfl
  | cons kv rest ih =>
    rw [show memGet (kv :: rest) sid = if kv.1 = sid then kv.2 else memGet rest sid from rfl,
      if_neg (h kv (List.mem_cons_self kv rest))]
    exact ih fun y hy => h y (List.mem_cons_of_mem kv hy)

/-- C5: the memory read used in prompt assembly returns at most
MEMORY_WINDOW most-recent turns in their original order (a trailing
segment of the stored history, of length exactly MEMORY_WINDOW once the
history is at least that long); the appends at the end of call_agent are
unconditional with no cap; reading an unknown session id yields []. -/
theorem session_memory_spec (m : Memory) (sid : String) :
    (promptMemoryRead m sid).length ≤ MEMORY_WINDOW ∧
    (∃ pre, memGet m sid = pre ++ promptMemoryRead m sid) ∧
    (MEMORY_WINDOW ≤ (memGet m sid).length →
      (promptMemoryRead m sid).length = MEMORY_WINDOW) ∧
    (∀ question answer,
      memGet (call_agent_memory_update m sid question answer) sid =
        memGet m sid ++ [⟨"user", question⟩, ⟨"assistant", answer⟩]) ∧
    ((∀ kv ∈ m, kv.1 ≠ sid) → memGet m sid = []) := by
  refine ⟨?_, ?_, ?_, fun q a => memGet_update m sid q a, memGet_unknown m sid⟩
  · unfold promptMemoryRead
    by_cases h : (memGet m sid).isEmpty
    · simp [h]
    · rw [if_neg (by simpa using h), List.length_drop]
      omega
  · unfold promptMemoryRead
    by_cases h : (memGet m sid).isEmpty
    · rw [if_pos (by simpa using h)]
      exact ⟨memGet m sid, by simp⟩
    · rw [if_neg (by simpa using h)]
      exact ⟨(memGet m sid).take ((memGet m sid).length - MEMORY_WINDOW),
        (List.take_append_drop _ _).symm⟩
  · intro hlen
    unfold promptMemoryRead
    have hne : ¬ (memGet m sid).isEmpty = true := by
      intro hcon
      rw [List.isEmpty_iff] at hcon
      rw [hcon] at hlen
      simp [MEMORY_WINDOW] at hlen
    rw [if_neg (by simpa using hne), List.length_drop]
    unfold MEMORY_WINDOW at hlen ⊢
    omega

/-- Witness for C5: a session holding eight turns reads back exactly the
six most recent ones, and an unknown session id reads back nothing. -/
theorem session_memory_spec_witness :
    (promptMemoryRead
      [("s1", [⟨"user", "q1"⟩, ⟨"assistant", "a1"⟩, ⟨"user", "q2"⟩, ⟨"assistant", "a2"⟩,
               ⟨"user", "q3"⟩, ⟨"assistant", "a3"⟩, ⟨"user", "q4"⟩, ⟨"assistant", "a4"⟩])]
      "s1").length = MEMORY_WINDOW ∧
    memGet
      [("s1", [⟨"user", "q1"⟩, ⟨"assistant", "a1"⟩, ⟨"user", "q2"⟩, ⟨"assistant", "a2"⟩,
               ⟨"user", "q3"⟩, ⟨"assistant", "a3"⟩, ⟨"user", "q4"⟩, ⟨"assistant", "a4"⟩])]
      "s2" = [] :=
  ⟨(session_memory_spec
      [("s1", [⟨"user", "q1"⟩, ⟨"assistant", "a1"⟩, ⟨"user", "q2"⟩, ⟨"assistant", "a2"⟩,
               ⟨"user", "q3"⟩, ⟨"assistant", "a3"⟩, ⟨"user", "q4"⟩, ⟨"assistant", "a4"⟩])]
      "s1").2.2.1 (by decide),
   (session_memory_spec
      [("s1", [⟨"user", "q1"⟩, ⟨"assistant", "a1"⟩, ⟨"user", "q2"⟩, ⟨"assistant", "a2"⟩,
               ⟨"user", "q3"⟩, ⟨"assistant", "a3"⟩, ⟨"user", "q4"⟩, ⟨"assistant", "a4"⟩])]
      "s2").2.2.2.2 (by decide)⟩

/-! ## Lemmas about semantic_search -/

/-- C6: with no index loaded, semantic_search returns the empty sequence
for every query and every top_k, by an early return that precedes any
embedding or search call. -/
theorem semantic_search_no_index {V : Type} (embedQuery : String → V)
    (normalize_L2 : V → V) (kb_meta : List ChunkMeta) (query : String) (top_k : Nat) :
    semantic_search embedQuery normalize_L2 none kb_meta query top_k = [] := rfl

theorem searchHits_valid (kb : List ChunkMeta) :
    ∀ (I : List Int), ∀ mt ∈ searchHits kb I,
      ∃ i, ∃ hi : i < kb.length, mt = kb.get ⟨i, hi⟩ := by
  intro I
  induction I with
  | nil => intro mt h; exact absurd h (List.not_mem_nil mt)
  | cons idx rest ih =>
    intro mt h
    unfold searchHits at h
    by_cases hc : idx < 0 ∨ (kb.length : Int) ≤ idx
    · rw [dif_pos hc] at h
      exact ih mt h
    · rw [dif_neg hc] at h
      rcases List.mem_cons.mp h with h1 | h1
      · exact ⟨idx.toNat, by omega, h1⟩
      · exact ih mt h1

theorem searchHits_length (kb : List ChunkMeta) :
    ∀ I : List Int, (searchHits kb I).length ≤ I.length := by
  intro I
  induction I with
  | nil => simp [searchHits]
  | cons idx rest ih =>
    unfold searchHits
    by_cases hc : idx < 0 ∨ (kb.length : Int) ≤ idx
    · rw [dif_pos hc, List.length_cons]
      omega
    · rw [dif_neg hc, List.length_cons, List.length_cons]
      omega

theorem searchHits_cons (kb : List ChunkMeta) (idx : Int) (rest : List Int) :
    searchHits kb (idx :: rest) =
      if h : idx < 0 ∨ (kb.length : Int) ≤ idx then searchHits kb rest
      else kb.get ⟨idx.toNat, by omega⟩ :: searchHits kb rest := rfl

theorem searchHits_filter (kb : List ChunkMeta) :
    ∀ I : List Int, searchHits kb I =
      searchHits kb (I.filter (fun p => decide (0 ≤ p ∧ p < (kb.length : Int)))) := by
  intro I
  induction I with
  | nil => rfl
  | cons idx rest ih =>
    by_cases hc : idx < 0 ∨ (kb.length : Int) ≤ idx
    · rw [List.filter_cons_of_neg (by simp; omega), searchHits_cons, dif_pos hc]
      exact ih
    · rw [List.filter_cons_of_pos (by simp; omega), searchHits_cons, searchHits_cons,
        dif_neg hc, dif_neg hc, ih]

/-- C7: every hit returned by semantic_search is kb_meta at a valid
position; positions that are negative (the -1 sentinel) or past the end
of the metadata are skipped silently (the result equals the result on
the validity-filtered position list); and when the index returns at most
top_k positions, at most top_k hits are returned. -/
theorem semantic_search_hits_safe {V : Type} (embedQuery : String → V)
    (normalize_L2 : V → V) (idx : FaissIndex V) (kb_meta : List ChunkMeta)
    (query : String) (top_k : Nat)
    (hlen : (idx.search (normalize_L2 (embedQuery query)) top_k).length ≤ top_k) :
    (∀ mt ∈ semantic_search embedQuery normalize_L2 (some idx) kb_meta query top_k,
      ∃ i, ∃ hi : i < kb_meta.length, mt = kb_meta.get ⟨i, hi⟩) ∧
    semantic_search embedQuery normalize_L2 (some idx) kb_meta query top_k =
      searchHits kb_meta ((idx.search (normalize_L2 (embedQuery query)) top_k).filter
        (fun p => decide (0 ≤ p ∧ p < (kb_meta.length : Int)))) ∧
    (semantic_search embedQuery normalize_L2 (some idx) kb_meta query top_k).length ≤ top_k :=
  ⟨searchHits_valid kb_meta _, searchHits_filter kb_meta _,
   le_trans (searchHits_length kb_meta _) hlen⟩

/-- Witness for C7: a three-position search row containing the -1
sentinel, one valid position and one out-of-range position yields the
single valid hit. -/
theorem semantic_search_hits_safe_witness :
    ((FaissIndex.mk fun (_ : Nat) (_ : Nat) => [-1, 0, 5]).search (id ((fun _ => 0) "q")) 3).length ≤ 3 ∧
    ((∀ mt ∈ semantic_search (fun _ => (0 : Nat)) id (some ⟨fun _ _ => [-1, 0, 5]⟩)
        [ChunkMeta.mk "f.md" []] "q" 3,
      ∃ i, ∃ hi : i < [ChunkMeta.mk "f.md" []].length,
        mt = [ChunkMeta.mk "f.md" []].get ⟨i, hi⟩) ∧
     semantic_search (fun _ => (0 : Nat)) id (some ⟨fun _ _ => [-1, 0, 5]⟩)
        [ChunkMeta.mk "f.md" []] "q" 3 =
       searchHits [ChunkMeta.mk "f.md" []]
         (((FaissIndex.mk fun (_ : Nat) (_ : Nat) => [-1, 0, 5]).search (id ((fun _ => 0) "q")) 3).filter
           (fun p => decide (0 ≤ p ∧ p < (([ChunkMeta.mk "f.md" []] : List ChunkMeta).length : Int)))) ∧
     (semantic_search (fun _ => (0 : Nat)) id (some ⟨fun _ _ => [-1, 0, 5]⟩)
        [ChunkMeta.mk "f.md" []] "q" 3).length ≤ 3) :=
  ⟨by decide,
   semantic_search_hits_safe (fun _ => (0 : Nat)) id ⟨fun _ _ => [-1, 0, 5]⟩
     [ChunkMeta.mk "f.md" []] "q" 3 (by decide)⟩

/-! ## Lemmas about the index build -/

theorem buildCorpus_chunks_eq (files : List (String × List Char)) :
    (buildCorpus files).1 = (buildCorpus files).2.map ChunkMeta.text := by
  induction files with
  | nil => rfl
  | cons f rest ih =>
    obtain ⟨name, txt⟩ := f
    simp only [buildCorpus, List.map_append, List.map_map, ih]
    congr 1
    rw [show (ChunkMeta.text ∘ fun p => ChunkMeta.mk name p) = id from rfl, List.map_id]

/-- C8: whenever the build persists an index, the vector list and the
metadata list have equal length, and vector i is exactly the normalized
embedding of the chunk text stored at metadata position i. -/
theorem buildMain_alignment {V : Type} (embed_texts : List Char → V) (normalize_L2 : V → V)
    (files : List (String × List Char)) (vecs : List V) (meta : List ChunkMeta)
    (h : (buildMain embed_texts normalize_L2 files).written = some (vecs, meta)) :
    vecs.length = meta.length ∧
    ∀ (i : Nat) (hv : i < vecs.length) (hm : i < meta.length),
      vecs.get ⟨i, hv⟩ = normalize_L2 (embed_texts ((meta.get ⟨i, hm⟩).text)) := by
  unfold buildMain at h
  by_cases hc : (buildCorpus files).1.isEmpty
  · rw [if_pos hc] at h
    simp at h
  · rw [if_neg hc] at h
    simp only [Option.some.injEq, Prod.mk.injEq] at h
    obtain ⟨h1, h2⟩ := h
    subst h1
    subst h2
    constructor
    · rw [List.length_map, List.length_map, buildCorpus_chunks_eq, List.length_map]
    · intro i hv hm
      have hc2 := buildCorpus_chunks_eq files
      simp only [List.get_eq_getElem, List.getElem_map]
      congr 1
      congr 1
      simp only [hc2, List.getElem_map]

/-- Witness for C8: one file whose two-character text fits in one chunk;
the single vector is the normalized embedding of that chunk. -/
theorem buildMain_alignment_witness :
    (buildMain List.length (fun n => n + 1) [("a.md", "hi".data)]).written =
      some ([3], [ChunkMeta.mk "a.md" "hi".data]) ∧
    (([3] : List Nat).length = [ChunkMeta.mk "a.md" "hi".data].length ∧
     ∀ (i : Nat) (hv : i < ([3] : List Nat).length)
       (hm : i < [ChunkMeta.mk "a.md" "hi".data].length),
       ([3] : List Nat).get ⟨i, hv⟩ =
         (fun n => n + 1) (List.length (([ChunkMeta.mk "a.md" "hi".data].get ⟨i, hm⟩).text))) :=
  ⟨by decide,
   buildMain_alignment List.length (fun n => n + 1) [("a.md", "hi".data)]
     [3] [ChunkMeta.mk "a.md" "hi".data] (by decide)⟩

/-- C9: when chunking the document folder yields no chunks (in
particular, for an empty folder), the build reports zero chunks, writes
neither the index nor the metadata, and its outcome does not depend on
the embedding function — no embedding call is made. -/
theorem buildMain_empty {V : Type} (embed1 embed2 : List Char → V) (normalize_L2 : V → V)
    (files : List (String × List Char)) (h : (buildCorpus files).1 = []) :
    (buildMain embed1 normalize_L2 files).reportedChunks = 0 ∧
    (buildMain embed1 normalize_L2 files).written = none ∧
    buildMain embed1 normalize_L2 files = buildMain embed2 normalize_L2 files ∧
    (buildCorpus ([] : List (String × List Char))).1 = [] := by
  have hc : (buildCorpus files).1.isEmpty = true := by rw [h]; rfl
  refine ⟨?_, ?_, ?_, rfl⟩
  · simp [buildMain, hc, h]
  · simp [buildMain, hc]
  · simp [buildMain, hc]

/-- Witness for C9: the empty file list, with two distinct embedding
functions giving identical build outcomes. -/
theorem buildMain_empty_witness :
    (buildCorpus ([] : List (String × List Char))).1 = [] ∧
    ((buildMain (fun _ => (0 : Nat)) id ([] : List (String × List Char))).reportedChunks = 0 ∧
     (buildMain (fun _ => (0 : Nat)) id ([] : List (String × List Char))).written = none ∧
     buildMain (fun _ => (0 : Nat)) id ([] : List (String × List Char)) =
       buildMain (fun _ => (1 : Nat)) id ([] : List (String × List Char)) ∧
     (buildCorpus ([] : List (String × List Char))).1 = []) :=
  ⟨rfl, buildMain_empty (fun _ => 0) (fun _ => 1) id [] rfl⟩

/-! ## Lemmas about the orchestrator tool branch -/

/-- C1: when json.loads fails on the raw argument string, the tool branch
falls back to using the raw argument string itself as the section
identifier and completes without raising, for every argument string. -/
theorem call_agent_fallback (jsonParse : String → Option PyJson)
    (LAWS_DB : List (String × String)) (func_name : String)
    (argumentsField : Option String)
    (h : jsonParse (pyRawArgs argumentsField) = none) :
    (func_name = "laws_lookup" →
      call_agent_tool_step jsonParse LAWS_DB func_name argumentsField =
        Except.ok (ToolResult.lookup (laws_lookup LAWS_DB (pyRawArgs argumentsField)))) ∧
    (∃ r, call_agent_tool_step jsonParse LAWS_DB func_name argumentsField =
      Except.ok r) := by
  have hmain : func_name = "laws_lookup" →
      call_agent_tool_step jsonParse LAWS_DB func_name argumentsField =
        Except.ok (ToolResult.lookup (laws_lookup LAWS_DB (pyRawArgs argumentsField))) := by
    intro hname
    subst hname
    simp only [call_agent_tool_step]
    rw [h]
    rfl
  refine ⟨hmain, ?_⟩
  by_cases hname : func_name = "laws_lookup"
  · exact ⟨_, hmain hname⟩
  · refine ⟨ToolResult.unknownTool func_name, ?_⟩
    simp only [call_agent_tool_step]
    rw [h, if_neg hname]

/-- Witness for C1: an unparseable argument string is used verbatim as
the section identifier. -/
theorem call_agent_fallback_witness :
    call_agent_tool_step (fun _ => (none : Option PyJson)) [("17(5) CGST", "textB")]
        "laws_lookup" (some "not json") =
      Except.ok (ToolResult.lookup
        (laws_lookup [("17(5) CGST", "textB")] (pyRawArgs (some "not json")))) :=
  (call_agent_fallback (fun _ => none) [("17(5) CGST", "textB")] "laws_lookup"
    (some "not json") rfl).1 rfl

end CaGpt
